import Mathlib

/-!
Verification of the soulmd repository's core components against its
natural-language specification, via a shallow embedding in Lean 4.

File contents are modelled as `List Char` (the sources read and write
UTF-8 text files and compare them with string prefix operations), the
local swap/backup engine as explicit state passing over an abstract
filesystem state, the registry layer as pure functions over lists of
records, and the signed storage client as pure request-building
parameterized over abstract cryptographic primitives.
-/

namespace Soulmd

/-- File contents are byte/character sequences. -/
abbrev Bytes := List Char

/-! ## Swap / Backup / Rollback engine (packages/cli/src/swap.ts)

The engine manages a single active file ("SOUL.md") and a single
backup slot.  We model the relevant filesystem state as the optional
contents of those two locations (`none` = file absent). -/

/-- `SWAP_MARKER` from swap.ts: the literal sentinel line prepended to a
swapped active file. -/
def SWAP_MARKER : Bytes := "<!-- opensoul:swapped -->".data

/-- Filesystem state seen by the swap engine: the active file and the
single backup slot, each possibly absent. -/
structure SwapState where
  active : Option Bytes
  backup : Option Bytes
  deriving Repr, DecidableEq

/-- `isSwapped` from swap.ts: the active file exists and its content
starts with the swap marker. -/
def isSwapped (s : SwapState) : Bool :=
  match s.active with
  | none => false
  | some content => SWAP_MARKER.isPrefixOf content

/-- `hasBackup` from swap.ts: the backup slot is occupied. -/
def hasBackup (s : SwapState) : Bool := s.backup.isSome

/-- `swapSoul` from swap.ts: if the active file is not already swapped
and exists, copy its bytes to the backup slot; then write
`marker ++ "\n" ++ newContent` to the active file.  Returns the new
state together with the `backedUp` flag. -/
def swapSoul (newContent : Bytes) (s : SwapState) : SwapState × Bool :=
  let backedUp := !(isSwapped s) && s.active.isSome
  let backup' := if backedUp then s.active else s.backup
  let marked := SWAP_MARKER ++ '\n' :: newContent
  (⟨some marked, backup'⟩, backedUp)

/-- `rollbackSoul` from swap.ts: if no backup exists return `false`
without touching anything; otherwise copy the backup bytes onto the
active file (the backup slot itself is not cleared). -/
def rollbackSoul (s : SwapState) : SwapState × Bool :=
  match s.backup with
  | none => (s, false)
  | some b => (⟨some b, some b⟩, true)

/-- Iterate `swapSoul` over a list of new contents, collecting the
`backedUp` flag of each call in order. -/
def swapSeq (s : SwapState) : List Bytes → SwapState × List Bool
  | [] => (s, [])
  | c :: cs =>
    let (s', b) := swapSoul c s
    let (s'', bs) := swapSeq s' cs
    (s'', b :: bs)

/-! ## Identity layer: slugify / generateLabel (storage/sqlite.ts)

`slugify` lower-cases the name, replaces every run of characters
outside `[a-z0-9]` with a single hyphen (regex `[^a-z0-9]+` applied
globally), and strips one leading and one trailing hyphen (regex
`^-|-$` applied globally; after run-collapsing at most one of each can
occur). -/

/-- A character kept verbatim by the slugify regex `[^a-z0-9]+`
(matched after lower-casing). -/
def isSlugChar (c : Char) : Bool :=
  ('a' ≤ c && c ≤ 'z') || ('0' ≤ c && c ≤ '9')

/-- Replace every maximal run of non-slug characters with a single
hyphen.  The boolean tracks whether we are inside such a run (whose
hyphen has already been emitted). -/
def collapseAux : Bool → Bytes → Bytes
  | _, [] => []
  | inRun, c :: rest =>
    if isSlugChar c then c :: collapseAux false rest
    else if inRun then collapseAux true rest
    else '-' :: collapseAux true rest

/-- Global replacement of `[^a-z0-9]+` runs by `-`. -/
def collapseRuns (l : Bytes) : Bytes := collapseAux false l

/-- The regex `replace(/^-|-$/g, "")`: remove one leading hyphen, then
one trailing hyphen of the remainder. -/
def trimHyphens (l : Bytes) : Bytes :=
  let l1 := if l.head? = some '-' then l.tail else l
  if l1.getLast? = some '-' then l1.dropLast else l1

/-- `slugify` from storage/sqlite.ts. -/
def slugify (name : Bytes) : Bytes :=
  trimHyphens (collapseRuns (name.map Char.toLower))

/-- The character for a decimal digit `d < 10`. -/
def digitChar (d : Nat) : Char := Char.ofNat (48 + d)

/-- Decimal digit characters of `n`, most significant first, with an
explicit fuel argument (`fuel > n` suffices) so that the definition is
structurally recursive and kernel-evaluable. -/
def natDigitsAux : Nat → Nat → Bytes
  | 0, _ => []
  | fuel + 1, n =>
    if n < 10 then [digitChar n]
    else natDigitsAux fuel (n / 10) ++ [digitChar (n % 10)]

/-- Decimal representation of `n`, as produced by JS template
interpolation of a number. -/
def natDigits (n : Nat) : Bytes := natDigitsAux (n + 1) n

/-- Parse a decimal digit character back to its value (left inverse
used to prove `natDigits` injective). -/
def charVal (c : Char) : Nat := c.toNat - 48

/-- Parse a decimal representation back to a number. -/
def parseNum (l : Bytes) : Nat := l.foldl (fun a c => a * 10 + charVal c) 0

/-- The candidate label `` `${base}-${k}` `` probed by `generateLabel`. -/
def labelWithSuffix (base : Bytes) (k : Nat) : Bytes := base ++ '-' :: natDigits k

/-- The `taken` set of `generateLabel`: existing labels matching
`label = base OR label LIKE 'base-%'`. -/
def takenLabels (labels : List Bytes) (base : Bytes) : List Bytes :=
  labels.filter (fun l => l == base || (base ++ ['-']).isPrefixOf l)

/-- The `while (taken.has(...)) suffix++` probe loop of
`generateLabel`, with explicit fuel (the loop can fail at most
`taken.length` times, so `taken.length + 1` fuel suffices). -/
def probe (taken : List Bytes) (base : Bytes) : Nat → Nat → Bytes
  | 0, k => labelWithSuffix base k
  | fuel + 1, k =>
    if labelWithSuffix base k ∈ taken then probe taken base fuel (k + 1)
    else labelWithSuffix base k

/-- `generateLabel` from storage/sqlite.ts: slugify the name; if the
base label is free return it, otherwise probe numeric suffixes
`-2`, `-3`, … in order. -/
def generateLabel (labels : List Bytes) (name : Bytes) : Bytes :=
  let base := slugify name
  let taken := takenLabels labels base
  if base ∈ taken then probe taken base (taken.length + 1) 2
  else base

/-- A row of the `souls` table (the fields the verified operations
touch). -/
structure SoulRow where
  id : Nat
  slug : Bytes
  label : Bytes
  name : Bytes
  rating_avg : ℚ
  rating_count : Nat
  downloads_count : Nat
  updated_at : Nat
  deriving Repr, DecidableEq

/-- `nanoid(8)` produces a short random slug; the `souls` table's
UNIQUE constraint makes accepted slugs globally unique.  We model the
generator as an injective supply indexed by a fresh counter. -/
def mkSlug (n : Nat) : Bytes := 's' :: natDigits n

/-- Registry persistence state: the souls table plus the fresh-slug
counter modelling nanoid. -/
structure RegistryState where
  souls : List SoulRow
  fresh : Nat

/-- The upload route (POST /): mint a slug, derive a unique label from
the (summarized) name, insert the new row.  Returns the new state and
the `(slug, label)` the route responds with. -/
def uploadSoul (st : RegistryState) (name : Bytes) : RegistryState × Bytes × Bytes :=
  let slug := mkSlug st.fresh
  let label := generateLabel (st.souls.map (·.label)) name
  let row : SoulRow :=
    { id := st.fresh, slug := slug, label := label, name := name,
      rating_avg := 0, rating_count := 0, downloads_count := 0, updated_at := 0 }
  ({ souls := st.souls ++ [row], fresh := st.fresh + 1 }, slug, label)

/-! ## Rating endpoint (POST /:slug/rate in routes/souls.ts)

The request body's `rating` field is a JS number or absent; we model
it as `Option ℚ`.  The `soul_ratings` table is a list of rows, and the
route is a pure function from the persisted state and the request to
the response and the new state. -/

/-- A row of the `soul_ratings` table. -/
structure RatingRow where
  soul_id : Nat
  user_id : Nat
  rating : ℤ
  deriving Repr, DecidableEq

/-- The route's validation guard
`!body.rating || body.rating < 1 || body.rating > 5 || !Number.isInteger(body.rating)`:
`true` means the request is rejected with a 400 before anything else
happens. -/
def rateValidationFails (rating : Option ℚ) : Bool :=
  match rating with
  | none => true
  | some v => v == 0 || decide (v < 1) || decide (5 < v) || !(v.den == 1)

/-- `INSERT ... ON CONFLICT(soul_id, user_id) DO UPDATE SET rating`:
overwrite the conflicting row if one exists, else append a new row. -/
def upsertRating (rows : List RatingRow) (sid uid : Nat) (w : ℤ) : List RatingRow :=
  if rows.any (fun r => r.soul_id == sid && r.user_id == uid) then
    rows.map (fun r =>
      if r.soul_id == sid && r.user_id == uid then { r with rating := w } else r)
  else rows ++ [⟨sid, uid, w⟩]

/-- `SELECT rating FROM soul_ratings WHERE soul_id = ?`. -/
def ratingsFor (rows : List RatingRow) (sid : Nat) : List ℤ :=
  (rows.filter (fun r => r.soul_id == sid)).map (·.rating)

/-- JavaScript `Math.round`: round to the nearest integer, halves
toward positive infinity. -/
def jsRound (q : ℚ) : ℤ := ⌊q + 1 / 2⌋

/-- Rounding half away from zero (the spec's rounding rule). -/
def roundHalfAwayFromZero (q : ℚ) : ℤ :=
  if 0 ≤ q then ⌊q + 1 / 2⌋ else ⌈q - 1 / 2⌉

/-- `AVG(rating)` over a list of ratings (SQL AVG; the route only uses
it with at least one row present). -/
def meanQ (l : List ℤ) : ℚ := (l.sum : ℚ) / l.length

/-- The cached average the route persists:
`Math.round(avg * 10) / 10`. -/
def cachedAvg (l : List ℤ) : ℚ := (jsRound (meanQ l * 10) : ℚ) / 10

/-- `SELECT * FROM souls WHERE slug = ? OR label = ?` (first row). -/
def findSoul (souls : List SoulRow) (p : Bytes) : Option SoulRow :=
  souls.find? (fun s => s.slug == p || s.label == p)

/-- Outcome of the rate route (the HTTP statuses it can produce). -/
inductive RateResult where
  | validationError
  | notFound
  | ok (avg : ℚ) (count : Nat)
  deriving Repr, DecidableEq

/-- Persisted API state touched by the rate route. -/
structure ApiState where
  souls : List SoulRow
  ratings : List RatingRow
  deriving Repr, DecidableEq

/-- The rate route: validate, look up the soul by slug or label,
upsert the (soul, user) rating, recompute the cached average and count
from the whole table, persist both on the soul row. -/
def ratePost (st : ApiState) (slugParam : Bytes) (userId : Nat)
    (rating : Option ℚ) : RateResult × ApiState :=
  if rateValidationFails rating then (.validationError, st)
  else
    let v : ℤ := (rating.getD 0).num
    match findSoul st.souls slugParam with
    | none => (.notFound, st)
    | some soul =>
      let rows := upsertRating st.ratings soul.id userId v
      let rs := ratingsFor rows soul.id
      let avg := cachedAvg rs
      let souls' := st.souls.map (fun s =>
        if s.id == soul.id then
          { s with rating_avg := avg, rating_count := rs.length } else s)
      (.ok avg rs.length, ⟨souls', rows⟩)

/-- The conflict key of a rating row: the `(soul_id, user_id)` pair
covered by the table's UNIQUE constraint. -/
def pairKey (r : RatingRow) : Nat × Nat := (r.soul_id, r.user_id)

/-! ## Listing order (GET / orderClause in routes/souls.ts)

The route builds one of three ORDER BY clauses.  SQLite's `LOG(X)` is
the base-10 logarithm (`LN` is the natural logarithm), so the `top`
score uses decimal logs. -/

/-- SQLite's `LOG` SQL function: base-10 logarithm. -/
noncomputable def sqliteLog (x : ℝ) : ℝ := Real.logb 10 x

/-- The `sort=top` ORDER BY score from the route:
`s.rating_avg * 0.5 + LOG(1 + s.rating_count) * 0.3 + LOG(1 + s.downloads_count) * 0.2`. -/
noncomputable def codeTopScore (avg : ℚ) (rc dl : Nat) : ℝ :=
  (avg : ℝ) * 0.5 + sqliteLog (1 + rc) * 0.3 + sqliteLog (1 + dl) * 0.2

/-- The weighted score exactly as the spec words it:
`0.5·rating_avg + 0.3·ln(1+rating_count) + 0.2·ln(1+downloads_count)`
with the natural logarithm. -/
noncomputable def specTopScore (avg : ℚ) (rc dl : Nat) : ℝ :=
  0.5 * (avg : ℝ) + 0.3 * Real.log (1 + rc) + 0.2 * Real.log (1 + dl)

/-- `ORDER BY s.updated_at DESC` (the default, `recent`). -/
def recentBefore (a b : SoulRow) : Prop := a.updated_at > b.updated_at

/-- `ORDER BY s.downloads_count DESC, s.rating_count DESC`
(`sort=popular`). -/
def popularBefore (a b : SoulRow) : Prop :=
  a.downloads_count > b.downloads_count ∨
    (a.downloads_count = b.downloads_count ∧ a.rating_count > b.rating_count)

/-- The route's order-clause selection: `top` and `popular` are
recognized, everything else falls back to the default recency order. -/
noncomputable def orderClause (sort : Option Bytes) : SoulRow → SoulRow → Prop :=
  if sort = some "top".data then
    fun a b =>
      codeTopScore a.rating_avg a.rating_count a.downloads_count >
        codeTopScore b.rating_avg b.rating_count b.downloads_count
  else if sort = some "popular".data then popularBefore
  else recentBefore

/-! ## Signed storage client (packages/api/src/storage/s3.ts)

The client is modelled over `Bytes`; the cryptographic primitives
(HMAC-SHA256, SHA-256 hex digest, byte-to-hex rendering) are abstract
function parameters, so the theorems are about how the client
assembles the signed request, for every choice of primitives. -/

/-- An HTTP response as the storage client sees it. -/
structure HttpResponse where
  status : Nat
  body : Bytes
  deriving Repr, DecidableEq

/-- JS `Response.ok`: status in the 2xx range. -/
def respOk (r : HttpResponse) : Bool := 200 ≤ r.status && r.status ≤ 299

/-- Outcome of a `fetch`: a response, or a thrown network error. -/
inductive FetchOutcome where
  | success (r : HttpResponse)
  | failure
  deriving Repr, DecidableEq

/-- The error `saveSoul` throws on a non-2xx PUT:
`` `S3 PUT failed (${res.status}): ${text}` `` — it carries the
response status and the response body. -/
structure S3PutError where
  status : Nat
  body : Bytes
  deriving Repr, DecidableEq

/-- `S3Storage.saveSoul` response handling: non-2xx raises the error
with status and body; 2xx returns the object key. -/
def saveSoul (slug : Bytes) (r : HttpResponse) : Except S3PutError Bytes :=
  if respOk r then .ok (slug ++ "/soul.md".data) else .error ⟨r.status, r.body⟩

/-- `S3Storage.getSoul` response handling: any thrown error and any
non-2xx response (404 included) yield `none`; a 2xx response yields
its body. -/
def getSoul (outcome : FetchOutcome) : Option Bytes :=
  match outcome with
  | .failure => none
  | .success r => if respOk r then some r.body else none

/-- `[...].join(sep)` on a list of strings. -/
def joinSep (sep : Bytes) : List Bytes → Bytes
  | [] => []
  | [x] => x
  | x :: xs => x ++ sep ++ joinSep sep xs

/-- The JS default string comparator (lexicographic by code unit),
as a boolean `≤`. -/
def lexLe : Bytes → Bytes → Bool
  | [], _ => true
  | _ :: _, [] => false
  | a :: as, b :: bs => if a < b then true else if b < a then false else lexLe as bs

/-- Insert into a sorted list (one step of `Array.sort`'s effect). -/
def insertBy (le : α → α → Bool) (x : α) : List α → List α
  | [] => [x]
  | y :: ys => if le x y then x :: y :: ys else y :: insertBy le x ys

/-- Sorting (the observable effect of JS `Array.sort` with a
consistent comparator). -/
def sortBy (le : α → α → Bool) : List α → List α
  | [] => []
  | x :: xs => insertBy le x (sortBy le xs)

/-- `Object.keys(headers).sort()`. -/
def signedHeaderKeys (headers : List (Bytes × Bytes)) : List Bytes :=
  sortBy lexLe (headers.map Prod.fst)

/-- Look up a header value by name (`headers[k]`). -/
def lookupHeader (headers : List (Bytes × Bytes)) (k : Bytes) : Bytes :=
  (((headers.find? (fun h => h.1 == k)).map Prod.snd).getD [])

/-- The `` `${k}:${headers[k]}\n` `` block of the canonical request,
in sorted key order. -/
def canonicalHeadersOf (headers : List (Bytes × Bytes)) : Bytes :=
  ((signedHeaderKeys headers).map
    (fun k => k ++ ':' :: lookupHeader headers k ++ "\n".data)).flatten

/-- `signedHeaders`: the sorted header names joined with `;`. -/
def signedHeadersOf (headers : List (Bytes × Bytes)) : Bytes :=
  joinSep ";".data (signedHeaderKeys headers)

/-- The canonical request as the code builds it:
`[method, uri, query, canonicalHeaders, signedHeaders, "UNSIGNED-PAYLOAD"].join("\n")`
with an always-empty query string. -/
def codeCanonicalRequest (method path : Bytes) (headers : List (Bytes × Bytes)) : Bytes :=
  joinSep "\n".data
    [method, path, [], canonicalHeadersOf headers, signedHeadersOf headers,
      "UNSIGNED-PAYLOAD".data]

/-- The credential scope `` `${dateStamp}/${region}/${service}/aws4_request` ``. -/
def scopeOf (dateStamp region service : Bytes) : Bytes :=
  dateStamp ++ '/' :: region ++ '/' :: service ++ "/aws4_request".data

/-- The string to sign as the code builds it:
`["AWS4-HMAC-SHA256", amzDate, scope, hash].join("\n")`. -/
def codeStringToSign (sha256hex : Bytes → Bytes)
    (amzDate dateStamp region service canonReq : Bytes) : Bytes :=
  joinSep "\n".data
    ["AWS4-HMAC-SHA256".data, amzDate, scopeOf dateStamp region service,
      sha256hex canonReq]

/-- The signing key as the code derives it:
`kDate = hmac("AWS4" + secret, dateStamp)`, then region, service,
`"aws4_request"`. -/
def codeSigningKey (hmac : Bytes → Bytes → Bytes)
    (secret dateStamp region service : Bytes) : Bytes :=
  hmac (hmac (hmac (hmac ("AWS4".data ++ secret) dateStamp) region) service)
    "aws4_request".data

/-- The signature the code computes: `hmacHex(kSigning, stringToSign)`
with `region = "auto"`, `service = "s3"`. -/
def codeSignature (hmac : Bytes → Bytes → Bytes) (toHex sha256hex : Bytes → Bytes)
    (secret method path dateStamp amzDate : Bytes)
    (headers : List (Bytes × Bytes)) : Bytes :=
  toHex (hmac
    (codeSigningKey hmac secret dateStamp "auto".data "s3".data)
    (codeStringToSign sha256hex amzDate dateStamp "auto".data "s3".data
      (codeCanonicalRequest method path headers)))

/-- The headers the code signs: `x-amz-date`, the unsigned-payload
marker, `host`, and `content-type: text/markdown` when a body is
sent. -/
def mkHeaders (amzDate host : Bytes) (hasBody : Bool) : List (Bytes × Bytes) :=
  [("x-amz-date".data, amzDate), ("x-amz-content-sha256".data, "UNSIGNED-PAYLOAD".data),
    ("host".data, host)] ++
    (if hasBody then [("content-type".data, "text/markdown".data)] else [])

/-- Reference canonical request, assembled exactly as the spec words
it: the HTTP method, URL path, empty query string, the sorted
`key:value\n` header block, the sorted semicolon-joined signed-header
names, and the literal `UNSIGNED-PAYLOAD`, newline-separated. -/
def specCanonicalRequest (method path : Bytes) (headers : List (Bytes × Bytes)) : Bytes :=
  method ++ "\n".data ++ path ++ "\n".data ++ [] ++ "\n".data ++
    canonicalHeadersOf headers ++ "\n".data ++ signedHeadersOf headers ++ "\n".data ++
    "UNSIGNED-PAYLOAD".data

/-- Reference string-to-sign, assembled exactly as the spec words it:
the algorithm tag, the request timestamp, the
`date/region/service/aws4_request` scope, and the hex SHA-256 of the
canonical request, newline-separated. -/
def specStringToSign (sha256hex : Bytes → Bytes)
    (amzDate dateStamp region service canonReq : Bytes) : Bytes :=
  "AWS4-HMAC-SHA256".data ++ "\n".data ++ amzDate ++ "\n".data ++
    (dateStamp ++ "/".data ++ region ++ "/".data ++ service ++ "/aws4_request".data) ++
    "\n".data ++ sha256hex canonReq

/-- Reference signing key: the four-step HMAC-SHA256 chain over the
date stamp, region, service, and the constant `aws4_request`, each
step keyed by the previous step's output, starting from the
(`AWS4`-prefixed) secret — written as a fold over the label list. -/
def specSigningKey (hmac : Bytes → Bytes → Bytes)
    (secret dateStamp region service : Bytes) : Bytes :=
  List.foldl hmac ("AWS4".data ++ secret)
    [dateStamp, region, service, "aws4_request".data]

/-- Reference signature per the spec's scheme, with `region = "auto"`
and `service = "s3"`. -/
def specSignature (hmac : Bytes → Bytes → Bytes) (toHex sha256hex : Bytes → Bytes)
    (secret method path dateStamp amzDate : Bytes)
    (headers : List (Bytes × Bytes)) : Bytes :=
  toHex (hmac
    (specSigningKey hmac secret dateStamp "auto".data "s3".data)
    (specStringToSign sha256hex amzDate dateStamp "auto".data "s3".data
      (specCanonicalRequest method path headers)))

/-! ## Local cache list view (the `list` command in cli/src/index.ts)

The cache index entries carry ISO-8601 timestamp strings, which
compare chronologically as strings; the list command sorts with a JS
comparator over those strings. -/

/-- A local cache index entry (the fields the list view reads). -/
structure CacheEntry where
  name : Bytes
  label : Option Bytes
  hash : Bytes
  cachedAt : Option Bytes
  lastUsedAt : Option Bytes
  deriving Repr, DecidableEq

/-- The sign of `x.localeCompare(y)` for code-unit-ordered strings:
negative if `x` sorts before `y`, `0` if equal, positive otherwise. -/
def strCompare : Bytes → Bytes → Int
  | [], [] => 0
  | [], _ :: _ => -1
  | _ :: _, [] => 1
  | a :: as, b :: bs => if a < b then -1 else if b < a then 1 else strCompare as bs

/-- The `list` command's comparator:
`aUsed ≠ bUsed ? bUsed.localeCompare(aUsed) : (b.cachedAt ?? "").localeCompare(a.cachedAt ?? "")`
with `aUsed = a.lastUsedAt ?? ""`. -/
def listCmp (a b : CacheEntry) : Int :=
  let aUsed := a.lastUsedAt.getD []
  let bUsed := b.lastUsedAt.getD []
  if aUsed ≠ bUsed then strCompare bUsed aUsed
  else strCompare (b.cachedAt.getD []) (a.cachedAt.getD [])

/-- `a` may come before `b` under the comparator (comparator value
`≤ 0`, which is what a consistent JS sort respects). -/
def listCmpLe (a b : CacheEntry) : Bool := decide (listCmp a b ≤ 0)

/-- The sorted view produced by the list command. -/
def sortedCache (entries : List CacheEntry) : List CacheEntry :=
  sortBy listCmpLe entries

/-! ## Resolution algorithm (the `possess` action in cli/src/index.ts)

The environment (filesystem, registry network, clock, SHA-256) is
passed in as explicit parameters; the cache index is the list of
entries.  `cache.ts` itself is not among the sources (only its tests
and its callers are), so its two operations used here are modelled
from the spec (§4.4), as marked below. -/

/-- Case-insensitive string equality (both sides lower-cased). -/
def lowerEq (a b : Bytes) : Bool := a.map Char.toLower == b.map Char.toLower

/-- Modelled from the spec: `cache.ts` `get(nameOrLabel)` is missing
from the sources; §4.4 specifies it as a case-insensitive exact match
against the stored name. -/
def getCached (cache : List CacheEntry) (tok : Bytes) : Option CacheEntry :=
  cache.find? (fun e => lowerEq e.name tok)

/-- Modelled from the spec: `cache.ts` `put(name, content, hash,
label?)` is missing from the sources; §4.4 specifies it as a lookup by
case-insensitive name, overwriting hash/label/timestamps in place if
found and inserting a fresh entry with `cachedAt = now` otherwise. -/
def cachePut (cache : List CacheEntry) (name hash : Bytes) (label : Option Bytes)
    (now : Bytes) : List CacheEntry :=
  if cache.any (fun e => lowerEq e.name name) then
    cache.map (fun e =>
      if lowerEq e.name name then
        { e with hash := hash, label := label, cachedAt := some now } else e)
  else cache ++ [⟨name, label, hash, some now, none⟩]

/-- Replace every maximal run of characters satisfying `p` with the
single character `r` (the effect of `replace(/[p]+/g, r)`). -/
def replaceRuns (p : Char → Bool) (r : Char) : Bool → Bytes → Bytes
  | _, [] => []
  | inRun, c :: rest =>
    if p c then
      (if inRun then replaceRuns p r true rest
       else r :: replaceRuns p r true rest)
    else c :: replaceRuns p r false rest

/-- JS `String.trim()`: strip leading and trailing whitespace. -/
def trimSpaces (l : Bytes) : Bytes :=
  ((l.dropWhile Char.isWhitespace).reverse.dropWhile Char.isWhitespace).reverse

/-- A character matched by the fuzzy normalizer's class `[-_\s]`. -/
def isSepChar (c : Char) : Bool := c == '-' || c == '_' || c.isWhitespace

/-- The possess command's fuzzy normalizer:
`s.toLowerCase().replace(/[-_\s]+/g, " ").trim()`. -/
def normalizeTok (l : Bytes) : Bytes :=
  trimSpaces (replaceRuns isSepChar ' ' false (l.map Char.toLower))

/-- JS `hay.includes(needle)`: substring containment. -/
def includesSub (hay needle : Bytes) : Bool := decide (needle <:+: hay)

/-- The fuzzy cache scan: keep entries whose normalized name and the
normalized token contain one another (bidirectional substring). -/
def fuzzyMatches (cache : List CacheEntry) (tok : Bytes) : List CacheEntry :=
  cache.filter (fun e =>
    includesSub (normalizeTok e.name) (normalizeTok tok) ||
      includesSub (normalizeTok tok) (normalizeTok e.name))

/-- The registry label candidate derived from the token:
`pathOrName.trim().toLowerCase().replace(/\s+/g, "-")`. -/
def tokenToLabel (tok : Bytes) : Bytes :=
  replaceRuns Char.isWhitespace '-' false ((trimSpaces tok).map Char.toLower)

/-- The search term used for suggestions:
`pathOrName.replace(/[-_]/g, " ").trim().split(/\s+/)[0]`. -/
def firstWord (tok : Bytes) : Bytes :=
  (trimSpaces (tok.map (fun c => if c == '-' || c == '_' then ' ' else c))).takeWhile
    (fun c => !c.isWhitespace)

/-- Outcome of resolving a user-supplied token. -/
inductive Resolution where
  | fromFile (content : Bytes)
  | fromCache (e : CacheEntry) (content : Bytes)
  | ambiguous (candidates : List Bytes)
  | summoned (label name content : Bytes) (newCache : List CacheEntry)
  | failed (suggestions : List Bytes)
  deriving Repr, DecidableEq

/-- The registry's joint answer to `Promise.all([getMeta(label),
getContent(label)])`: the metadata's name and (canonical) label, and
the content — or failure of either call. -/
structure RegistryAnswer where
  metaName : Bytes
  metaLabel : Bytes
  content : Bytes
  deriving Repr, DecidableEq

/-- The possess command's resolution, in its strict order: existing
local file; exact (case-insensitive) cache entry; fuzzy cache matches
(fail with candidates); registry fetch of metadata and content as a
joint pair (cache on success, under the metadata's name and label); on
fetch failure, a best-effort search by the token's first word
surfacing at most five suggested labels. -/
def resolveToken (fileContent : Option Bytes) (cache : List CacheEntry)
    (readCachedContent : CacheEntry → Bytes) (hashFn : Bytes → Bytes)
    (registry : Bytes → Option RegistryAnswer)
    (search : Bytes → Option (List Bytes)) (now : Bytes) (tok : Bytes) : Resolution :=
  match fileContent with
  | some content => .fromFile content
  | none =>
    match getCached cache tok with
    | some e => .fromCache e (readCachedContent e)
    | none =>
      if fuzzyMatches cache tok ≠ [] then
        .ambiguous ((fuzzyMatches cache tok).map (·.name))
      else
        match registry (tokenToLabel tok) with
        | some ans =>
          .summoned ans.metaLabel ans.metaName ans.content
            (cachePut cache ans.metaName (hashFn ans.content) (some ans.metaLabel) now)
        | none =>
          match search (firstWord tok) with
          | some results => .failed (results.take 5)
          | none => .failed []

/-! ## Theorems -/

/-- A list is always a prefix of itself followed by anything. -/
theorem isPrefixOf_append_self (l t : Bytes) : l.isPrefixOf (l ++ t) = true := by
  induction l with
  | nil => simp [List.isPrefixOf]
  | cons a as ih => simp [List.isPrefixOf, ih]

/-- After any `swapSoul`, the state is swapped. -/
theorem isSwapped_after_swap (c : Bytes) (s : SwapState) :
    isSwapped (swapSoul c s).1 = true := by
  simp [swapSoul, isSwapped, isPrefixOf_append_self]

/-- A swap performed while the state is swapped leaves the backup
untouched and reports `backedUp = false`. -/
theorem swap_while_swapped (c : Bytes) (s : SwapState) (h : isSwapped s = true) :
    (swapSoul c s).1.backup = s.backup ∧ (swapSoul c s).2 = false := by
  simp [swapSoul, h]

/-- Helper: the whole tail of a swap sequence started in a swapped
state reports no backups and preserves the backup slot. -/
theorem swapSeq_swapped (cs : List Bytes) (s : SwapState) (h : isSwapped s = true) :
    (swapSeq s cs).1.backup = s.backup ∧
      (swapSeq s cs).2 = List.replicate cs.length false := by
  induction cs generalizing s with
  | nil => simp [swapSeq]
  | cons c cs ih =>
    have hb := swap_while_swapped c s h
    have hsw := isSwapped_after_swap c s
    have := ih (swapSoul c s).1 hsw
    simp only [swapSeq]
    constructor
    · rw [this.1, hb.1]
    · simp [List.replicate, hb.2, this.2]

/-- Helper: a swap sequence started from an existing, unswapped active
file `C₀` backs up exactly on the first call, capturing `C₀`. -/
theorem swapSeq_from_original (C0 c : Bytes) (cs : List Bytes) (bk : Option Bytes)
    (horig : SWAP_MARKER.isPrefixOf C0 = false) :
    (swapSeq ⟨some C0, bk⟩ (c :: cs)).1.backup = some C0 ∧
      (swapSeq ⟨some C0, bk⟩ (c :: cs)).2 = true :: List.replicate cs.length false := by
  have h1 : swapSoul c ⟨some C0, bk⟩ =
      (⟨some (SWAP_MARKER ++ '\n' :: c), some C0⟩, true) := by
    simp [swapSoul, isSwapped, horig]
  have hsw : isSwapped (swapSoul c ⟨some C0, bk⟩).1 = true := isSwapped_after_swap c _
  have htail := swapSeq_swapped cs (swapSoul c ⟨some C0, bk⟩).1 hsw
  simp only [swapSeq]
  constructor
  · rw [htail.1, h1]
  · rw [htail.2, h1]

/-- **C1**: for every sequence of `swap(newContent)` calls beginning with
the active file in state ORIGINAL with bytes `C₀`, exactly one backup
write occurs across the whole sequence: the first swap copies `C₀`
verbatim to the single backup slot and returns `backedUp = true`, and
every subsequent swap made while the file is SWAPPED leaves the backup
untouched and returns `backedUp = false`; if the active file does not
exist, swap writes no backup but still succeeds (writing the marked
content). -/
theorem c1_swap_single_backup (C0 c : Bytes) (cs : List Bytes) (bk : Option Bytes)
    (horig : SWAP_MARKER.isPrefixOf C0 = false) :
    swapSoul c ⟨some C0, bk⟩ = (⟨some (SWAP_MARKER ++ '\n' :: c), some C0⟩, true) ∧
    (∀ (c' : Bytes) (s' : SwapState), isSwapped s' = true →
        (swapSoul c' s').1.backup = s'.backup ∧ (swapSoul c' s').2 = false) ∧
    (swapSeq ⟨some C0, bk⟩ (c :: cs)).1.backup = some C0 ∧
    (swapSeq ⟨some C0, bk⟩ (c :: cs)).2 = true :: List.replicate cs.length false ∧
    swapSoul c ⟨none, bk⟩ = (⟨some (SWAP_MARKER ++ '\n' :: c), bk⟩, false) := by
  refine ⟨?_, swap_while_swapped, ?_, ?_, ?_⟩
  · simp [swapSoul, isSwapped, horig]
  · exact (swapSeq_from_original C0 c cs bk horig).1
  · exact (swapSeq_from_original C0 c cs bk horig).2
  · simp [swapSoul, isSwapped]

/-- Witness for C1 at a concrete original content and swap sequence. -/
theorem c1_swap_single_backup_witness :
    SWAP_MARKER.isPrefixOf "# Original".data = false ∧
    (swapSoul "new soul".data ⟨some "# Original".data, none⟩ =
        (⟨some (SWAP_MARKER ++ '\n' :: "new soul".data), some "# Original".data⟩, true) ∧
      (∀ (c' : Bytes) (s' : SwapState), isSwapped s' = true →
          (swapSoul c' s').1.backup = s'.backup ∧ (swapSoul c' s').2 = false) ∧
      (swapSeq ⟨some "# Original".data, none⟩
          ("new soul".data :: ["second".data])).1.backup = some "# Original".data ∧
      (swapSeq ⟨some "# Original".data, none⟩ ("new soul".data :: ["second".data])).2 =
        true :: List.replicate ["second".data].length false ∧
      swapSoul "new soul".data ⟨none, none⟩ =
        (⟨some (SWAP_MARKER ++ '\n' :: "new soul".data), none⟩, false)) :=
  ⟨by decide, c1_swap_single_backup "# Original".data "new soul".data
    ["second".data] none (by decide)⟩

/-- **C2**: `rollback()` with no backup fails with an explicit `false`
signal and does not mutate the state; with a backup `b` present it
copies `b` verbatim onto the active file regardless of the current
state, leaves the backup slot holding `b`, and is repeatable with the
same result; after any number of swaps starting from original content
`C₀`, rollback restores the active file to byte-exact `C₀`. -/
theorem c2_rollback_restores (s : SwapState) (C0 c : Bytes) (cs : List Bytes)
    (bk : Option Bytes) (horig : SWAP_MARKER.isPrefixOf C0 = false) :
    (s.backup = none → rollbackSoul s = (s, false)) ∧
    (∀ b : Bytes, s.backup = some b →
        rollbackSoul s = (⟨some b, some b⟩, true) ∧
        rollbackSoul (rollbackSoul s).1 = rollbackSoul s) ∧
    rollbackSoul (swapSeq ⟨some C0, bk⟩ (c :: cs)).1 = (⟨some C0, some C0⟩, true) := by
  refine ⟨?_, ?_, ?_⟩
  · intro h; simp [rollbackSoul, h]
  · intro b h; simp [rollbackSoul, h]
  · have hb := (swapSeq_from_original C0 c cs bk horig).1
    simp [rollbackSoul, hb]

/-- Witness for C2 at concrete states with and without a backup. -/
theorem c2_rollback_restores_witness :
    SWAP_MARKER.isPrefixOf "# Original".data = false ∧
    (((⟨some "x".data, none⟩ : SwapState).backup = none →
        rollbackSoul ⟨some "x".data, none⟩ = (⟨some "x".data, none⟩, false)) ∧
      (∀ b : Bytes, (⟨some "x".data, none⟩ : SwapState).backup = some b →
          rollbackSoul ⟨some "x".data, none⟩ = (⟨some b, some b⟩, true) ∧
          rollbackSoul (rollbackSoul ⟨some "x".data, none⟩).1 =
            rollbackSoul ⟨some "x".data, none⟩) ∧
      rollbackSoul (swapSeq ⟨some "# Original".data, none⟩
          ("a".data :: ["b".data])).1 =
        (⟨some "# Original".data, some "# Original".data⟩, true)) :=
  ⟨by decide, c2_rollback_restores ⟨some "x".data, none⟩ "# Original".data
    "a".data ["b".data] none (by decide)⟩

/-- Digit characters decode back to their digit. -/
theorem charVal_digitChar (d : Nat) (h : d < 10) : charVal (digitChar d) = d := by
  interval_cases d <;> decide

/-- `parseNum` peels off a trailing digit. -/
theorem parseNum_append (l : Bytes) (c : Char) :
    parseNum (l ++ [c]) = parseNum l * 10 + charVal c := by
  simp [parseNum, List.foldl_append]

/-- With sufficient fuel, `natDigitsAux` is a right inverse of
`parseNum`. -/
theorem parseNum_natDigitsAux :
    ∀ fuel n, n < fuel → parseNum (natDigitsAux fuel n) = n := by
  intro fuel
  induction fuel with
  | zero => intro n h; omega
  | succ fuel ih =>
    intro n h
    by_cases h10 : n < 10
    · simp [natDigitsAux, h10, parseNum, charVal_digitChar n h10]
    · have hdiv : n / 10 < fuel := by omega
      simp only [natDigitsAux, if_neg h10]
      rw [parseNum_append, ih (n / 10) hdiv, charVal_digitChar (n % 10) (by omega)]
      omega

/-- `parseNum` recovers `n` from its decimal representation. -/
theorem parseNum_natDigits (n : Nat) : parseNum (natDigits n) = n :=
  parseNum_natDigitsAux (n + 1) n (by omega)

/-- Decimal representations are injective. -/
theorem natDigits_injective : Function.Injective natDigits := by
  intro a b h
  have ha := parseNum_natDigits a
  rw [h, parseNum_natDigits b] at ha
  omega

/-- Suffixed labels with distinct suffixes are distinct. -/
theorem labelWithSuffix_injective (base : Bytes) :
    Function.Injective (labelWithSuffix base) := by
  intro a b h
  unfold labelWithSuffix at h
  have h2 := List.append_cancel_left h
  exact natDigits_injective (by injection h2)

/-- The base label is in the `taken` query result iff it is among the
existing labels. -/
theorem base_mem_takenLabels (labels : List Bytes) (base : Bytes) :
    base ∈ takenLabels labels base ↔ base ∈ labels := by
  simp [takenLabels, List.mem_filter]

/-- A suffixed candidate is in the `taken` query result iff it is
among the existing labels (it always matches the `LIKE 'base-%'`
pattern). -/
theorem suffix_mem_takenLabels (labels : List Bytes) (base : Bytes) (k : Nat) :
    labelWithSuffix base k ∈ takenLabels labels base ↔
      labelWithSuffix base k ∈ labels := by
  have hpre : (base ++ ['-']).isPrefixOf (labelWithSuffix base k) = true := by
    have : labelWithSuffix base k = (base ++ ['-']) ++ natDigits k := by
      simp [labelWithSuffix]
    rw [this]
    exact isPrefixOf_append_self _ _
  simp [takenLabels, List.mem_filter, hpre]

/-- The probe loop returns the first free suffixed label, provided a
free one exists within the fuel bound. -/
theorem probe_spec (taken : List Bytes) (base : Bytes) :
    ∀ fuel k, (∃ j, j ≤ fuel ∧ labelWithSuffix base (k + j) ∉ taken) →
      ∃ j0, probe taken base fuel k = labelWithSuffix base (k + j0) ∧
        labelWithSuffix base (k + j0) ∉ taken ∧
        ∀ i, i < j0 → labelWithSuffix base (k + i) ∈ taken := by
  intro fuel
  induction fuel with
  | zero =>
    rintro k ⟨j, hj, hfree⟩
    have hj0 : j = 0 := Nat.le_zero.mp hj
    subst hj0
    exact ⟨0, rfl, hfree, fun i hi => absurd hi (Nat.not_lt_zero i)⟩
  | succ fuel ih =>
    rintro k ⟨j, hj, hfree⟩
    by_cases hmem : labelWithSuffix base k ∈ taken
    · have hex : ∃ j', j' ≤ fuel ∧ labelWithSuffix base (k + 1 + j') ∉ taken := by
        cases j with
        | zero => exact absurd (by simpa using hmem) (by simpa using hfree)
        | succ j' =>
          refine ⟨j', by omega, ?_⟩
          have harith : k + 1 + j' = k + (j' + 1) := by omega
          rw [harith]
          exact hfree
      obtain ⟨j0, heq, hfree0, hall⟩ := ih (k + 1) hex
      refine ⟨j0 + 1, ?_, ?_, ?_⟩
      · simp only [probe, if_pos hmem]
        rw [heq]
        congr 1
        omega
      · have harith : k + (j0 + 1) = k + 1 + j0 := by omega
        rw [harith]
        exact hfree0
      · intro i hi
        cases i with
        | zero => simpa using hmem
        | succ i' =>
          have harith : k + (i' + 1) = k + 1 + i' := by omega
          rw [harith]
          exact hall i' (by omega)
    · exact ⟨0, by simp [probe, hmem], by simpa using hmem,
        fun i hi => absurd hi (Nat.not_lt_zero i)⟩

/-- Pigeonhole: among `taken.length + 2` distinct suffixed candidates,
one is not in `taken`. -/
theorem free_suffix_exists (taken : List Bytes) (base : Bytes) :
    ∃ j, j ≤ taken.length + 1 ∧ labelWithSuffix base (2 + j) ∉ taken := by
  by_contra hcon
  push_neg at hcon
  have hsub : ((List.range (taken.length + 2)).map
      (fun j => labelWithSuffix base (2 + j))) ⊆ taken := by
    intro x hx
    simp only [List.mem_map, List.mem_range] at hx
    obtain ⟨j, hj, rfl⟩ := hx
    exact hcon j (by omega)
  have hnodup : ((List.range (taken.length + 2)).map
      (fun j => labelWithSuffix base (2 + j))).Nodup := by
    refine (List.nodup_range _).map ?_
    intro a b hab
    have := labelWithSuffix_injective base hab
    omega
  have hlen := (hnodup.subperm hsub).length_le
  simp at hlen

/-- Helper: full characterization of `generateLabel` against the set
of existing labels. -/
theorem generateLabel_spec (labels : List Bytes) (name : Bytes) :
    (slugify name ∉ labels → generateLabel labels name = slugify name) ∧
    (slugify name ∈ labels →
      ∃ k, 2 ≤ k ∧ generateLabel labels name = labelWithSuffix (slugify name) k ∧
        labelWithSuffix (slugify name) k ∉ labels ∧
        ∀ j, 2 ≤ j → j < k → labelWithSuffix (slugify name) j ∈ labels) := by
  constructor
  · intro h
    unfold generateLabel
    rw [if_neg]
    intro hmem
    exact h ((base_mem_takenLabels labels (slugify name)).mp hmem)
  · intro h
    unfold generateLabel
    rw [if_pos ((base_mem_takenLabels labels (slugify name)).mpr h)]
    obtain ⟨j, hj, hfree⟩ :=
      free_suffix_exists (takenLabels labels (slugify name)) (slugify name)
    obtain ⟨j0, heq, hfree0, hall⟩ :=
      probe_spec (takenLabels labels (slugify name)) (slugify name)
        ((takenLabels labels (slugify name)).length + 1) 2 ⟨j, hj, hfree⟩
    refine ⟨2 + j0, by omega, heq, ?_, ?_⟩
    · intro hmem
      exact hfree0 ((suffix_mem_takenLabels labels (slugify name) (2 + j0)).mpr hmem)
    · intro i h2 hik
      have := hall (i - 2) (by omega)
      have harith : 2 + (i - 2) = i := by omega
      rw [harith] at this
      exact (suffix_mem_takenLabels labels (slugify name) i).mp this

/-- **C4**: `deriveLabel(name)` lower-cases the name, replaces every
run of non-alphanumeric characters with a single hyphen and trims
leading/trailing hyphens (this is `slugify`); if the base label is
free it is returned, otherwise the numeric suffixes `-2`, `-3`, … are
probed in order and the first free one is returned; uploading two
documents with the identical name "Ride or Die" yields the labels
`ride-or-die` and `ride-or-die-2` and two distinct slugs. -/
theorem c4_deriveLabel (labels : List Bytes) (name : Bytes) :
    (slugify name ∉ labels → generateLabel labels name = slugify name) ∧
    (slugify name ∈ labels →
      ∃ k, 2 ≤ k ∧ generateLabel labels name = labelWithSuffix (slugify name) k ∧
        labelWithSuffix (slugify name) k ∉ labels ∧
        ∀ j, 2 ≤ j → j < k → labelWithSuffix (slugify name) j ∈ labels) ∧
    slugify "Ride or Die".data = "ride-or-die".data ∧
    (uploadSoul ⟨[], 0⟩ "Ride or Die".data).2.2 = "ride-or-die".data ∧
    (uploadSoul (uploadSoul ⟨[], 0⟩ "Ride or Die".data).1 "Ride or Die".data).2.2 =
      "ride-or-die-2".data ∧
    (uploadSoul ⟨[], 0⟩ "Ride or Die".data).2.1 ≠
      (uploadSoul (uploadSoul ⟨[], 0⟩ "Ride or Die".data).1 "Ride or Die".data).2.1 ∧
    (∀ (st : RegistryState) (n1 n2 : Bytes),
      (uploadSoul st n1).2.1 ≠ (uploadSoul (uploadSoul st n1).1 n2).2.1) := by
  refine ⟨(generateLabel_spec labels name).1, (generateLabel_spec labels name).2,
    by decide, by decide, by decide, by decide, ?_⟩
  intro st n1 n2 h
  simp only [uploadSoul, mkSlug] at h
  have h2 : natDigits st.fresh = natDigits (st.fresh + 1) := by injection h
  have := natDigits_injective h2
  omega

/-- Witness for C4: the base label is returned when free, at the
concrete name "Ride or Die" against an empty registry. -/
theorem c4_deriveLabel_witness :
    slugify "Ride or Die".data ∉ ([] : List Bytes) ∧
    generateLabel [] "Ride or Die".data = slugify "Ride or Die".data :=
  ⟨by decide, (c4_deriveLabel [] "Ride or Die".data).1 (by decide)⟩

/-- Passing validation means the rating is an integer in `[1, 5]`. -/
theorem rateValidation_ok {v : ℚ} (h : rateValidationFails (some v) = false) :
    1 ≤ v ∧ v ≤ 5 ∧ v.den = 1 := by
  simp only [rateValidationFails, Bool.or_eq_false_iff, beq_eq_false_iff_ne,
    decide_eq_false_iff_not, not_lt, Bool.not_eq_false', beq_iff_eq] at h
  exact ⟨h.1.1.2, h.1.2, h.2⟩

/-- A rational with denominator 1 equals its numerator. -/
theorem num_cast_of_den_one {v : ℚ} (hden : v.den = 1) : (v.num : ℚ) = v := by
  rw [← Rat.num_div_den v, hden]
  simp

/-- A validated rating's numerator is at least 1. -/
theorem one_le_num {v : ℚ} (h1 : 1 ≤ v) (hden : v.den = 1) : 1 ≤ v.num := by
  have : ((1 : ℤ) : ℚ) ≤ (v.num : ℚ) := by
    rw [num_cast_of_den_one hden]
    exact_mod_cast h1
  exact_mod_cast this

/-- Upserting a rating `≥ 1` into a table of ratings `≥ 1` keeps all
ratings `≥ 1`. -/
theorem upsert_rating_ge (rows : List RatingRow) (sid uid : Nat) (w : ℤ)
    (hrows : ∀ r ∈ rows, 1 ≤ r.rating) (hw : 1 ≤ w) :
    ∀ r ∈ upsertRating rows sid uid w, 1 ≤ r.rating := by
  intro r hr
  by_cases hany : rows.any (fun r => r.soul_id == sid && r.user_id == uid) = true
  · simp only [upsertRating, hany, if_true] at hr
    obtain ⟨r0, hr0, heq⟩ := List.mem_map.mp hr
    by_cases hp : (r0.soul_id == sid && r0.user_id == uid) = true
    · rw [if_pos hp] at heq
      rw [← heq]
      exact hw
    · rw [if_neg hp] at heq
      rw [← heq]
      exact hrows r0 hr0
  · simp only [upsertRating, hany, if_false, Bool.false_eq_true] at hr
    rcases List.mem_append.mp hr with h | h
    · exact hrows r h
    · simp only [List.mem_singleton] at h
      rw [h]
      exact hw

/-- Every value in `ratingsFor rows sid` is the rating of some row. -/
theorem ratingsFor_ge (rows : List RatingRow) (sid : Nat)
    (hrows : ∀ r ∈ rows, 1 ≤ r.rating) : ∀ x ∈ ratingsFor rows sid, 1 ≤ x := by
  intro x hx
  obtain ⟨r, hr, rfl⟩ := List.mem_map.mp hx
  exact hrows r (List.mem_filter.mp hr).1

/-- The mean of a list of ratings `≥ 1` is nonnegative. -/
theorem meanQ_nonneg (l : List ℤ) (h : ∀ x ∈ l, 1 ≤ x) : 0 ≤ meanQ l := by
  unfold meanQ
  apply div_nonneg
  · have hs : (0 : ℤ) ≤ l.sum :=
      List.sum_nonneg fun x hx => le_trans zero_le_one (h x hx)
    exact_mod_cast hs
  · positivity

/-- `Math.round` agrees with round-half-away-from-zero on nonnegative
inputs. -/
theorem jsRound_eq_roundHalfAwayFromZero {q : ℚ} (h : 0 ≤ q) :
    jsRound q = roundHalfAwayFromZero q := by
  simp [jsRound, roundHalfAwayFromZero, h]

/-- On ratings `≥ 1`, the persisted cached average is the true mean
rounded to one decimal place, half away from zero. -/
theorem cachedAvg_eq_spec (l : List ℤ) (h : ∀ x ∈ l, 1 ≤ x) :
    cachedAvg l = (roundHalfAwayFromZero (meanQ l * 10) : ℚ) / 10 := by
  unfold cachedAvg
  rw [jsRound_eq_roundHalfAwayFromZero (mul_nonneg (meanQ_nonneg l h) (by norm_num))]

/-- The upserted pair's row is present after the upsert. -/
theorem upsert_mem (rows : List RatingRow) (sid uid : Nat) (w : ℤ) :
    (⟨sid, uid, w⟩ : RatingRow) ∈ upsertRating rows sid uid w := by
  by_cases hany : rows.any (fun r => r.soul_id == sid && r.user_id == uid) = true
  · simp only [upsertRating, hany, if_true]
    obtain ⟨r0, hr0, hp⟩ := List.any_eq_true.mp hany
    refine List.mem_map.mpr ⟨r0, hr0, ?_⟩
    have hkey : r0.soul_id = sid ∧ r0.user_id = uid := by simpa using hp
    rw [if_pos (by simpa using hp)]
    cases r0
    simp_all
  · simp [upsertRating, hany]

/-- The upsert preserves the conflict-key Nodup invariant: at most one
rating per `(soul, user)` pair. -/
theorem upsert_nodup (rows : List RatingRow) (sid uid : Nat) (w : ℤ)
    (h : (rows.map pairKey).Nodup) :
    ((upsertRating rows sid uid w).map pairKey).Nodup := by
  by_cases hany : rows.any (fun r => r.soul_id == sid && r.user_id == uid) = true
  · have hmap : (upsertRating rows sid uid w).map pairKey = rows.map pairKey := by
      simp only [upsertRating, hany, if_true, List.map_map]
      apply List.map_congr_left
      intro r _
      simp only [Function.comp]
      split <;> rfl
    rw [hmap]
    exact h
  · have hnotin : (sid, uid) ∉ rows.map pairKey := by
      intro hmem
      obtain ⟨r, hr, hkey⟩ := List.mem_map.mp hmem
      have : r.soul_id = sid ∧ r.user_id = uid := by
        constructor
        · exact congrArg Prod.fst hkey
        · exact congrArg Prod.snd hkey
      rw [List.any_eq_true] at hany
      exact hany ⟨r, hr, by simp [this.1, this.2]⟩
    simp only [upsertRating, hany, if_false, Bool.false_eq_true, List.map_append]
    simp [List.nodup_append, h, pairKey, hnotin]

/-- **C3**: `rate(document, rater, value)` rejects any value that is
not an integer in `[1,5]` with a validation error before any mutation;
otherwise it upserts the `(document, rater)` pair so at most one
rating per pair exists, recomputes `rating_avg` as the true mean of
all current ratings rounded to one decimal place half away from zero,
and `rating_count` as the row count, persisting both onto the document
record; ratings 4 and 2 from two distinct raters give avg 3.0 and
count 2, and resubmitting the second rater's rating as 5 gives avg 4.5
and count still 2. -/
theorem c3_rate (st : ApiState) (slugP : Bytes) (uid : Nat) (v : ℚ) (soul : SoulRow)
    (hval : rateValidationFails (some v) = false)
    (hfound : findSoul st.souls slugP = some soul)
    (hrange : ∀ r ∈ st.ratings, 1 ≤ r.rating)
    (hnodup : (st.ratings.map pairKey).Nodup) :
    (∀ rating' : Option ℚ, rateValidationFails rating' = true →
        ratePost st slugP uid rating' = (.validationError, st)) ∧
    (⟨soul.id, uid, v.num⟩ : RatingRow) ∈ upsertRating st.ratings soul.id uid v.num ∧
    ((upsertRating st.ratings soul.id uid v.num).map pairKey).Nodup ∧
    (ratePost st slugP uid (some v)).1 =
      .ok ((roundHalfAwayFromZero
            (meanQ (ratingsFor (upsertRating st.ratings soul.id uid v.num) soul.id) * 10) : ℚ) / 10)
        (ratingsFor (upsertRating st.ratings soul.id uid v.num) soul.id).length ∧
    (ratePost st slugP uid (some v)).2.ratings = upsertRating st.ratings soul.id uid v.num ∧
    (∀ s' ∈ (ratePost st slugP uid (some v)).2.souls, s'.id = soul.id →
        s'.rating_avg = (roundHalfAwayFromZero
            (meanQ (ratingsFor (upsertRating st.ratings soul.id uid v.num) soul.id) * 10) : ℚ) / 10 ∧
        s'.rating_count = (ratingsFor (upsertRating st.ratings soul.id uid v.num) soul.id).length) ∧
    (ratePost (ratePost ⟨[⟨1, "s1".data, "l".data, "n".data, 0, 0, 0, 0⟩], []⟩
        "s1".data 1 (some 4)).2 "s1".data 2 (some 2)).1 = .ok 3 2 ∧
    (ratePost (ratePost (ratePost ⟨[⟨1, "s1".data, "l".data, "n".data, 0, 0, 0, 0⟩], []⟩
        "s1".data 1 (some 4)).2 "s1".data 2 (some 2)).2 "s1".data 2 (some 5)).1 =
      .ok (9 / 2) 2 := by
  have hone := rateValidation_ok hval
  have hwnum : 1 ≤ v.num := one_le_num hone.1 hone.2.2
  have hrows := upsert_rating_ge st.ratings soul.id uid v.num hrange hwnum
  have hrs := ratingsFor_ge (upsertRating st.ratings soul.id uid v.num) soul.id hrows
  have havg := cachedAvg_eq_spec _ hrs
  have hpost : ratePost st slugP uid (some v) =
      (.ok (cachedAvg (ratingsFor (upsertRating st.ratings soul.id uid v.num) soul.id))
          (ratingsFor (upsertRating st.ratings soul.id uid v.num) soul.id).length,
        ⟨st.souls.map (fun s =>
            if s.id == soul.id then
              { s with
                rating_avg :=
                  cachedAvg (ratingsFor (upsertRating st.ratings soul.id uid v.num) soul.id),
                rating_count :=
                  (ratingsFor (upsertRating st.ratings soul.id uid v.num) soul.id).length }
            else s),
          upsertRating st.ratings soul.id uid v.num⟩) := by
    simp [ratePost, hval, hfound]
  refine ⟨?_, upsert_mem st.ratings soul.id uid v.num,
    upsert_nodup st.ratings soul.id uid v.num hnodup, ?_, ?_, ?_, ?_, ?_⟩
  · intro rating' hbad
    simp [ratePost, hbad]
  · rw [hpost, ← havg]
  · rw [hpost]
  · intro s' hs' hid
    rw [hpost] at hs'
    simp only at hs'
    obtain ⟨s, _, heq⟩ := List.mem_map.mp hs'
    by_cases hp : (s.id == soul.id) = true
    · rw [if_pos hp] at heq
      rw [← heq]
      exact ⟨havg ▸ rfl, rfl⟩
    · rw [if_neg hp] at heq
      exfalso
      apply hp
      rw [heq]
      simpa using hid
  · with_unfolding_all rfl
  · with_unfolding_all rfl

/-- Witness for C3: a valid rating of 4 on a one-soul registry. -/
theorem c3_rate_witness :
    rateValidationFails (some 4) = false ∧
    findSoul [⟨1, "s1".data, "l".data, "n".data, 0, 0, 0, 0⟩] "s1".data =
      some ⟨1, "s1".data, "l".data, "n".data, 0, 0, 0, 0⟩ ∧
    (ratePost ⟨[⟨1, "s1".data, "l".data, "n".data, 0, 0, 0, 0⟩], []⟩
        "s1".data 7 (some 4)).2.ratings = upsertRating [] 1 7 (4 : ℚ).num :=
  ⟨by with_unfolding_all rfl, by with_unfolding_all rfl,
    (c3_rate ⟨[⟨1, "s1".data, "l".data, "n".data, 0, 0, 0, 0⟩], []⟩ "s1".data 7 4
      ⟨1, "s1".data, "l".data, "n".data, 0, 0, 0, 0⟩
      (by with_unfolding_all rfl) (by with_unfolding_all rfl)
      (by simp) (by simp)).2.2.2.2.1⟩

/-- **C10**: in the rate endpoint, rating validation is checked before
document existence: every request whose rating is missing, zero,
non-integer, or outside `[1,5]` gets the validation error even when
the slug or label matches no document, and the state is not
mutated. -/
theorem c10_validation_before_lookup (st : ApiState) (slugP : Bytes) (uid : Nat)
    (rating : Option ℚ) :
    rateValidationFails none = true ∧
    (∀ v : ℚ, (v = 0 ∨ v < 1 ∨ 5 < v ∨ v.den ≠ 1) →
        rateValidationFails (some v) = true) ∧
    (rateValidationFails rating = true →
        ratePost st slugP uid rating = (.validationError, st)) ∧
    (rateValidationFails rating = true → findSoul st.souls slugP = none →
        ratePost st slugP uid rating = (.validationError, st)) := by
  refine ⟨rfl, ?_, ?_, ?_⟩
  · intro v hv
    simp only [rateValidationFails, Bool.or_eq_true, beq_iff_eq, decide_eq_true_eq,
      Bool.not_eq_true', beq_eq_false_iff_ne]
    rcases hv with h | h | h | h
    · exact Or.inl (Or.inl (Or.inl h))
    · exact Or.inl (Or.inl (Or.inr h))
    · exact Or.inl (Or.inr h)
    · exact Or.inr h
  · intro hbad
    simp [ratePost, hbad]
  · intro hbad _
    simp [ratePost, hbad]

/-- Witness for C10: rating 6 against a state where the slug matches
nothing still yields the validation error, not a 404. -/
theorem c10_validation_before_lookup_witness :
    rateValidationFails (some 6) = true ∧
    findSoul ([] : List SoulRow) "nope".data = none ∧
    ratePost ⟨[], []⟩ "nope".data 1 (some 6) = (.validationError, ⟨[], []⟩) :=
  ⟨by with_unfolding_all rfl, rfl,
    (c10_validation_before_lookup ⟨[], []⟩ "nope".data 1 (some 6)).2.2.2
      (by with_unfolding_all rfl) rfl⟩

/-- `log 10` is positive. -/
theorem log_ten_pos : (0 : ℝ) < Real.log 10 := Real.log_pos (by norm_num)

/-- `log 4 = 2 log 2`. -/
theorem log_four : Real.log 4 = 2 * Real.log 2 := by
  rw [show (4 : ℝ) = 2 ^ (2 : ℕ) by norm_num, Real.log_pow]
  push_cast
  ring

/-- `log 8 = log 2 + log 4`. -/
theorem log_eight : Real.log 8 = Real.log 2 + Real.log 4 := by
  rw [show (8 : ℝ) = 2 * 4 by norm_num, Real.log_mul (by norm_num) (by norm_num)]

/-- `6 log 4 < 5 log 10` (i.e. `log₁₀ 4 < 5/6`), via `4⁶ < 10⁵`. -/
theorem six_log_four_lt : 6 * Real.log 4 < 5 * Real.log 10 := by
  have h1 : Real.log ((4 : ℝ) ^ (6 : ℕ)) < Real.log ((10 : ℝ) ^ (5 : ℕ)) :=
    Real.log_lt_log (by positivity) (by norm_num)
  rw [Real.log_pow, Real.log_pow] at h1
  push_cast at h1
  linarith

/-- **C5 counterexample**: the code's `top` score does not use the
natural logarithm.  With downloads equal, a document with avg 5.0 and
1 rating orders above one with avg 4.5 and 7 ratings under the code's
score (base-10 log), but below it under the spec's stated
natural-log score — the two formulas order this concrete pair
oppositely, so the code does not implement the claimed formula. -/
theorem c5_counterexample :
    codeTopScore 5 1 0 > codeTopScore (9 / 2) 7 0 ∧
    specTopScore 5 1 0 < specTopScore (9 / 2) 7 0 := by
  have hL10 := log_ten_pos
  have h2 : (0.6931471803 : ℝ) < Real.log 2 := Real.log_two_gt_d9
  constructor
  · simp only [codeTopScore, sqliteLog, Real.logb]
    norm_num [Real.log_one]
    have key : Real.log 8 / Real.log 10 * 0.3 - Real.log 2 / Real.log 10 * 0.3 < 0.25 := by
      rw [div_mul_eq_mul_div, div_mul_eq_mul_div, div_sub_div_same, div_lt_iff₀ hL10]
      nlinarith [six_log_four_lt, log_eight]
    linarith [key]
  · simp only [specTopScore]
    norm_num [Real.log_one]
    nlinarith [h2, log_eight, log_four]

/-- `5 log 10 < 6 log 17` (i.e. `log₁₀ 17 > 5/6`), via `10⁵ < 17⁶`. -/
theorem five_log_ten_lt : 5 * Real.log 10 < 6 * Real.log 17 := by
  have h1 : Real.log ((10 : ℝ) ^ (5 : ℕ)) < Real.log ((17 : ℝ) ^ (6 : ℕ)) :=
    Real.log_lt_log (by positivity) (by norm_num)
  rw [Real.log_pow, Real.log_pow] at h1
  push_cast at h1
  linarith

/-- `log 51 = log 3 + log 17`. -/
theorem log_fiftyone : Real.log 51 = Real.log 3 + Real.log 17 := by
  rw [show (51 : ℝ) = 3 * 17 by norm_num, Real.log_mul (by norm_num) (by norm_num)]

/-- **C5 (amended)**: rank orders listings by descending update
timestamp for the default mode, by descending download count with ties
broken by descending rating count for `popular`, and for `top` by the
descending weighted score
`0.5·rating_avg + 0.3·log₁₀(1+rating_count) + 0.2·log₁₀(1+downloads_count)`
using the **base-10** logarithm (SQLite `LOG`); under `top` a document
with rating_avg 5.0 and rating_count 2 orders below one with
rating_avg 4.5 and rating_count 50, other terms equal. -/
theorem c5_rank_base10 :
    orderClause none = recentBefore ∧
    orderClause (some "popular".data) = popularBefore ∧
    (orderClause (some "top".data) = fun a b =>
      codeTopScore a.rating_avg a.rating_count a.downloads_count >
        codeTopScore b.rating_avg b.rating_count b.downloads_count) ∧
    (∀ dl : Nat, codeTopScore (9 / 2) 50 dl > codeTopScore 5 2 dl) := by
  refine ⟨?_, ?_, ?_, ?_⟩
  · simp [orderClause]
  · rw [orderClause, if_neg (by decide), if_pos rfl]
  · rw [orderClause, if_pos rfl]
  · intro dl
    have hL10 := log_ten_pos
    simp only [codeTopScore, sqliteLog, Real.logb]
    norm_num
    have key : Real.log 51 / Real.log 10 * 0.3 - Real.log 3 / Real.log 10 * 0.3 > 0.25 := by
      rw [gt_iff_lt, div_mul_eq_mul_div, div_mul_eq_mul_div, div_sub_div_same,
        lt_div_iff₀ hL10]
      nlinarith [five_log_ten_lt, log_fiftyone]
    linarith [key]

/-- **C6**: for the signed storage client, a non-2xx response to PUT
makes `saveSoul` raise an error carrying the response status and body
(it never reports success when the write did not persist), while GET
treats every non-2xx response — 404 included — and every thrown fetch
error as absent by returning `none`, and returns the body on 2xx. -/
theorem c6_storage_failure_semantics (slug : Bytes) (r : HttpResponse) :
    (respOk r = false → saveSoul slug r = .error ⟨r.status, r.body⟩) ∧
    (respOk r = true → saveSoul slug r = .ok (slug ++ "/soul.md".data)) ∧
    (respOk r = false → getSoul (.success r) = none) ∧
    (∀ b : Bytes, getSoul (.success ⟨404, b⟩) = none) ∧
    getSoul .failure = none ∧
    (respOk r = true → getSoul (.success r) = some r.body) := by
  refine ⟨?_, ?_, ?_, ?_, rfl, ?_⟩
  · intro h; simp [saveSoul, h]
  · intro h; simp [saveSoul, h]
  · intro h; simp [getSoul, h]
  · intro b; simp [getSoul, respOk]
  · intro h; simp [getSoul, h]

/-- Witness for C6 at a concrete 500 PUT response and a concrete 200
GET response. -/
theorem c6_storage_failure_semantics_witness :
    respOk ⟨500, "boom".data⟩ = false ∧
    saveSoul "abc".data ⟨500, "boom".data⟩ = .error ⟨500, "boom".data⟩ ∧
    getSoul (.success ⟨500, "boom".data⟩) = none ∧
    respOk ⟨200, "hello".data⟩ = true ∧
    getSoul (.success ⟨200, "hello".data⟩) = some "hello".data :=
  ⟨rfl,
    (c6_storage_failure_semantics "abc".data ⟨500, "boom".data⟩).1 rfl,
    (c6_storage_failure_semantics "abc".data ⟨500, "boom".data⟩).2.2.1 rfl,
    rfl,
    (c6_storage_failure_semantics "abc".data ⟨200, "hello".data⟩).2.2.2.2.2 rfl⟩

/-- **C7**: for every choice of the cryptographic primitives and of
timestamp, secret, method, path and header set (with region `auto`
and service `s3` as in the code), the signature the code computes
equals the reference definition assembled from the spec's words: the
four-step HMAC-SHA256 key chain over date stamp, region, service,
`aws4_request`; the canonical request of method, path, empty query,
sorted `key:value` header block, sorted `;`-joined header names, and
`UNSIGNED-PAYLOAD`; and the string-to-sign of algorithm tag,
timestamp, scope and hex SHA-256 of the canonical request. -/
theorem c7_signature_scheme (hmac : Bytes → Bytes → Bytes)
    (toHex sha256hex : Bytes → Bytes)
    (secret method path dateStamp amzDate : Bytes)
    (headers : List (Bytes × Bytes)) :
    codeSignature hmac toHex sha256hex secret method path dateStamp amzDate headers =
      specSignature hmac toHex sha256hex secret method path dateStamp amzDate headers ∧
    codeSigningKey hmac secret dateStamp "auto".data "s3".data =
      hmac (hmac (hmac (hmac ("AWS4".data ++ secret) dateStamp) "auto".data)
        "s3".data) "aws4_request".data ∧
    codeCanonicalRequest method path headers =
      method ++ '\n' :: path ++ '\n' :: '\n' :: canonicalHeadersOf headers ++
        '\n' :: signedHeadersOf headers ++ '\n' :: "UNSIGNED-PAYLOAD".data := by
  refine ⟨?_, rfl, ?_⟩
  · simp [codeSignature, specSignature, codeSigningKey, specSigningKey,
      codeStringToSign, specStringToSign, codeCanonicalRequest, specCanonicalRequest,
      scopeOf, joinSep]
  · simp [codeCanonicalRequest, joinSep]

/-- Comparing a string with itself yields 0. -/
theorem strCompare_self (x : Bytes) : strCompare x x = 0 := by
  induction x with
  | nil => rfl
  | cons a as ih => simp [strCompare, lt_irrefl, ih]

/-- The comparator is antisymmetric: swapping arguments negates it. -/
theorem strCompare_antisymm (x y : Bytes) : strCompare x y = -strCompare y x := by
  induction x generalizing y with
  | nil => cases y <;> simp [strCompare]
  | cons a as ih =>
    cases y with
    | nil => simp [strCompare]
    | cons b bs =>
      rcases lt_trichotomy a b with h | h | h
      · simp [strCompare, h, asymm h]
      · subst h
        simp [strCompare, lt_irrefl, ih bs]
      · simp [strCompare, h, asymm h]

/-- The comparator is zero exactly on equal strings. -/
theorem strCompare_eq_zero_iff (x y : Bytes) : strCompare x y = 0 ↔ x = y := by
  induction x generalizing y with
  | nil => cases y <;> simp [strCompare]
  | cons a as ih =>
    cases y with
    | nil => simp [strCompare]
    | cons b bs =>
      simp only [strCompare]
      rcases lt_trichotomy a b with h | h | h
      · rw [if_pos h]
        simp [ne_of_lt h]
      · subst h
        rw [if_neg (lt_irrefl a), if_neg (lt_irrefl a)]
        simp [ih bs]
      · rw [if_neg (asymm h), if_pos h]
        simp [(ne_of_lt h).symm]

/-- The comparator's `≤ 0` relation is transitive. -/
theorem strCompare_le_trans {x y z : Bytes}
    (h1 : strCompare x y ≤ 0) (h2 : strCompare y z ≤ 0) : strCompare x z ≤ 0 := by
  induction x generalizing y z with
  | nil => cases z <;> simp [strCompare]
  | cons a as ih =>
    cases y with
    | nil => simp [strCompare] at h1
    | cons b bs =>
      cases z with
      | nil => simp [strCompare] at h2
      | cons c cs =>
        simp only [strCompare] at h1 h2 ⊢
        rcases lt_trichotomy a b with hab | hab | hab
        · rcases lt_trichotomy b c with hbc | hbc | hbc
          · rw [if_pos (lt_trans hab hbc)]
            norm_num
          · subst hbc
            rw [if_pos hab]
            norm_num
          · rw [if_neg (asymm hbc), if_pos hbc] at h2
            norm_num at h2
        · subst hab
          rw [if_neg (lt_irrefl a), if_neg (lt_irrefl a)] at h1
          rcases lt_trichotomy a c with hac | hac | hac
          · rw [if_pos hac]
            norm_num
          · subst hac
            rw [if_neg (lt_irrefl a), if_neg (lt_irrefl a)] at h2 ⊢
            exact ih h1 h2
          · rw [if_neg (asymm hac), if_pos hac] at h2
            norm_num at h2
        · rw [if_neg (asymm hab), if_pos hab] at h1
          norm_num at h1

/-- Inserting into a list is a permutation of consing. -/
theorem insertBy_perm (le : α → α → Bool) (x : α) (l : List α) :
    List.Perm (insertBy le x l) (x :: l) := by
  induction l with
  | nil => exact List.Perm.refl _
  | cons y ys ih =>
    by_cases h : le x y = true
    · simp [insertBy, h]
    · simp only [insertBy, if_neg h]
      exact (ih.cons y).trans (List.Perm.swap x y ys)

/-- Sorting permutes its input. -/
theorem sortBy_perm (le : α → α → Bool) (l : List α) : List.Perm (sortBy le l) l := by
  induction l with
  | nil => exact List.Perm.refl _
  | cons x xs ih =>
    exact (insertBy_perm le x (sortBy le xs)).trans (ih.cons x)

/-- Inserting into a sorted list keeps it sorted, for a total and
transitive boolean relation. -/
theorem insertBy_pairwise (le : α → α → Bool)
    (htrans : ∀ a b c, le a b = true → le b c = true → le a c = true)
    (htot : ∀ a b, le a b = true ∨ le b a = true)
    (x : α) (l : List α) (h : l.Pairwise (fun a b => le a b = true)) :
    (insertBy le x l).Pairwise (fun a b => le a b = true) := by
  induction l with
  | nil => simp [insertBy]
  | cons y ys ih =>
    rcases List.pairwise_cons.mp h with ⟨hy, hys⟩
    by_cases hxy : le x y = true
    · simp only [insertBy, if_pos hxy]
      refine List.pairwise_cons.mpr ⟨?_, h⟩
      intro z hz
      rcases List.mem_cons.mp hz with rfl | hz
      · exact hxy
      · exact htrans x y z hxy (hy z hz)
    · simp only [insertBy, if_neg hxy]
      refine List.pairwise_cons.mpr ⟨?_, ih hys⟩
      intro z hz
      rcases List.mem_cons.mp ((insertBy_perm le x ys).mem_iff.mp hz) with hzx | hz'
      · rw [hzx]
        rcases htot x y with h' | h'
        · exact absurd h' hxy
        · exact h'
      · exact hy z hz'

/-- Sorting yields a pairwise-ordered list, for a total and transitive
boolean relation. -/
theorem sortBy_pairwise (le : α → α → Bool)
    (htrans : ∀ a b c, le a b = true → le b c = true → le a c = true)
    (htot : ∀ a b, le a b = true ∨ le b a = true)
    (l : List α) : (sortBy le l).Pairwise (fun a b => le a b = true) := by
  induction l with
  | nil => simp [sortBy]
  | cons x xs ih => exact insertBy_pairwise le htrans htot x (sortBy le xs) ih

/-- The list comparator is total. -/
theorem listCmpLe_total (a b : CacheEntry) :
    listCmpLe a b = true ∨ listCmpLe b a = true := by
  simp only [listCmpLe, decide_eq_true_eq]
  unfold listCmp
  by_cases h : a.lastUsedAt.getD [] = b.lastUsedAt.getD []
  · rw [if_neg (by simp [h]), if_neg (by simp [h.symm])]
    have := strCompare_antisymm (b.cachedAt.getD []) (a.cachedAt.getD [])
    omega
  · rw [if_pos (by simpa using h), if_pos (by simp; exact fun e => h e.symm)]
    have := strCompare_antisymm (b.lastUsedAt.getD []) (a.lastUsedAt.getD [])
    omega

/-- The list comparator is transitive. -/
theorem listCmpLe_trans (a b c : CacheEntry)
    (h1 : listCmpLe a b = true) (h2 : listCmpLe b c = true) :
    listCmpLe a c = true := by
  simp only [listCmpLe, decide_eq_true_eq] at h1 h2 ⊢
  unfold listCmp at h1 h2 ⊢
  by_cases hab : a.lastUsedAt.getD [] = b.lastUsedAt.getD []
  · by_cases hbc : b.lastUsedAt.getD [] = c.lastUsedAt.getD []
    · rw [if_neg (by simp [hab]), ] at h1
      rw [if_neg (by simp [hbc])] at h2
      rw [if_neg (by simp [hab.trans hbc])]
      exact strCompare_le_trans h2 h1
    · rw [if_pos (by simpa using hbc)] at h2
      rw [if_pos (by simp; rw [hab]; exact hbc)]
      rw [hab]
      exact h2
  · by_cases hbc : b.lastUsedAt.getD [] = c.lastUsedAt.getD []
    · rw [if_pos (by simpa using hab)] at h1
      rw [if_pos (by simp; rw [← hbc]; exact hab)]
      rw [← hbc]
      exact h1
    · rw [if_pos (by simpa using hab)] at h1
      rw [if_pos (by simpa using hbc)] at h2
      by_cases hac : a.lastUsedAt.getD [] = c.lastUsedAt.getD []
      · exfalso
        apply hab
        rw [hac] at h1
        have hs := strCompare_antisymm (b.lastUsedAt.getD []) (c.lastUsedAt.getD [])
        have h0 : strCompare (b.lastUsedAt.getD []) (c.lastUsedAt.getD []) = 0 := by
          omega
        have hbc' := (strCompare_eq_zero_iff _ _).mp h0
        rw [hac]
        exact hbc'.symm
      · rw [if_pos (by simpa using hac)]
        exact strCompare_le_trans h2 h1

/-- **C9**: the list-cached-documents view sorts entries by
`lastUsedAt` descending and then by `cachedAt` descending: the sorted
view is a permutation of the entries in which every earlier entry has
a `lastUsedAt` no older than every later entry's (absent timestamps
reading as the empty, i.e. oldest, string), and among entries with
equal (or absent) `lastUsedAt` every earlier entry has a `cachedAt` no
older than every later entry's. -/
theorem c9_list_sorted (entries : List CacheEntry) :
    List.Perm (sortedCache entries) entries ∧
    (sortedCache entries).Pairwise (fun a b =>
      strCompare (b.lastUsedAt.getD []) (a.lastUsedAt.getD []) ≤ 0 ∧
      (b.lastUsedAt.getD [] = a.lastUsedAt.getD [] →
        strCompare (b.cachedAt.getD []) (a.cachedAt.getD []) ≤ 0)) := by
  constructor
  · exact sortBy_perm _ _
  · apply List.Pairwise.imp ?_
      (sortBy_pairwise listCmpLe listCmpLe_trans listCmpLe_total entries)
    intro a b h
    simp only [listCmpLe, decide_eq_true_eq] at h
    unfold listCmp at h
    by_cases hab : a.lastUsedAt.getD [] = b.lastUsedAt.getD []
    · rw [if_neg (by simp [hab])] at h
      refine ⟨?_, fun _ => h⟩
      rw [hab]
      rw [strCompare_self]
    · rw [if_pos (by simpa using hab)] at h
      exact ⟨h, fun hc => absurd hc.symm hab⟩

/-- **C8**: the possess resolution resolves a token in strict order:
(1) an existing local file is read directly, with the same result for
every cache and registry; (2) otherwise an exact case-insensitive
cache hit is used; (3) otherwise any fuzzy (normalized bidirectional
substring) cache match fails reporting exactly the candidates, with no
automatic choice; (4) otherwise the derived registry label is fetched
(metadata and content jointly), the result is cached on success, and
on failure a best-effort search by the token's first word surfaces at
most five suggested labels without guessing a substitute.  The derived
label lower-cases and hyphenates, e.g. "Ride or Die" ↦ `ride-or-die`,
and the fuzzy normalizer collapses separators,
e.g. "ride_or-die" ↦ `ride or die`. -/
theorem c8_resolution (cache : List CacheEntry) (readc : CacheEntry → Bytes)
    (hashFn : Bytes → Bytes) (registry : Bytes → Option RegistryAnswer)
    (search : Bytes → Option (List Bytes)) (now tok : Bytes) :
    (∀ c : Bytes,
      resolveToken (some c) cache readc hashFn registry search now tok = .fromFile c) ∧
    (∀ e : CacheEntry, getCached cache tok = some e →
      resolveToken none cache readc hashFn registry search now tok =
        .fromCache e (readc e)) ∧
    (getCached cache tok = none → fuzzyMatches cache tok ≠ [] →
      resolveToken none cache readc hashFn registry search now tok =
        .ambiguous ((fuzzyMatches cache tok).map (·.name))) ∧
    (∀ ans : RegistryAnswer, getCached cache tok = none →
      fuzzyMatches cache tok = [] → registry (tokenToLabel tok) = some ans →
      resolveToken none cache readc hashFn registry search now tok =
        .summoned ans.metaLabel ans.metaName ans.content
          (cachePut cache ans.metaName (hashFn ans.content) (some ans.metaLabel) now)) ∧
    (∀ results : List Bytes, getCached cache tok = none →
      fuzzyMatches cache tok = [] → registry (tokenToLabel tok) = none →
      search (firstWord tok) = some results →
      resolveToken none cache readc hashFn registry search now tok =
          .failed (results.take 5) ∧
        (results.take 5).length ≤ 5) ∧
    (getCached cache tok = none → fuzzyMatches cache tok = [] →
      registry (tokenToLabel tok) = none → search (firstWord tok) = none →
      resolveToken none cache readc hashFn registry search now tok = .failed []) ∧
    tokenToLabel "Ride or Die".data = "ride-or-die".data ∧
    normalizeTok "ride_or-die".data = "ride or die".data := by
  refine ⟨fun c => rfl, ?_, ?_, ?_, ?_, ?_, by decide, by decide⟩
  · intro e he
    simp [resolveToken, he]
  · intro hc hf
    simp [resolveToken, hc, hf]
  · intro ans hc hf hreg
    simp [resolveToken, hc, hf, hreg]
  · intro results hc hf hreg hs
    refine ⟨?_, ?_⟩
    · simp [resolveToken, hc, hf, hreg, hs]
    · exact le_trans (List.length_take_le 5 results) (le_refl 5)
  · intro hc hf hreg hs
    simp [resolveToken, hc, hf, hreg, hs]

/-- Witness for C8: with an empty cache, no matching registry entry
and a failing search, resolution fails with no suggestions. -/
theorem c8_resolution_witness :
    getCached [] "ghost".data = none ∧
    fuzzyMatches [] "ghost".data = [] ∧
    resolveToken none [] (fun _ => []) (fun _ => []) (fun _ => none)
      (fun _ => none) "t0".data "ghost".data = .failed [] :=
  ⟨rfl, rfl,
    (c8_resolution [] (fun _ => []) (fun _ => []) (fun _ => none) (fun _ => none)
      "t0".data "ghost".data).2.2.2.2.2.1 rfl rfl rfl rfl⟩

end Soulmd


